import Mathlib

/-!
Shallow embedding of the `aws-cwlogs-util` repository (src/main.go).

The repository's single source file contains two variants of the tool:

* V1 — the watermark-driven poller (file part 1): `getLogStreams` with a
  labelled `break loop` short-circuit, a fetch cycle that collects all
  paginated events, sorts them by ingestion time (`msg.Less`), emits them,
  and advances the watermark `startTimeUnix = latest + 1`.
* V2 — the continuous-refresh tailing variant (file part 2): an ascending
  `getLogStreams` with a nil-timestamp guard and an `[min, max)` filter,
  a 100-name chunking loop over stream names, and a live-tail end-time
  advancement loop `endTimeUnix = endTimeUnix*1000 + timeOffset + 1000`.

Timestamps are modelled as `Int`, in milliseconds since the Unix epoch,
exactly as the Go code uses `int64` millisecond values.  The AWS backend
is an external collaborator: it is modelled as a function from a cycle
index and a fetch window to a page-collated result, constrained only by
the contract hypotheses `FetchWF` / `FetchNoErr` / `FetchNodup` below.
-/

namespace CwLogs

/-- A filtered log event, mirroring `cloudwatchlogs.FilteredLogEvent` in the
fields the program reads: `LogStreamName`, `Timestamp`, `IngestionTime`,
`Message`. -/
structure Event where
  logStreamName : String
  timestamp : Int
  ingestionTime : Int
  message : String
deriving DecidableEq, Repr

/-- The collated outcome of one paginated `FilterLogEvents` call sequence:
the events delivered over the channel before pagination stopped, and
whether `Err()` was non-nil at the end (events received before the error
are still delivered, as in V1 lines 181-199). -/
structure FetchResult where
  events : List Event
  error : Bool
deriving DecidableEq, Repr

/-- A log stream candidate from `DescribeLogStreams`: the fields the
program reads are `LogStreamName` and `LastEventTimestamp`; the latter is
a pointer in the SDK, hence an `Option`. -/
structure Candidate where
  name : String
  lastEventTime : Option Int
deriving DecidableEq, Repr

/-- The V1 main-loop state: the watermark `startTimeUnix`, the fixed
`endTimeUnix`, whether `endTime.IsZero()` holds, the `-log-stream-refresh`
flag, the current stream-name list in `filterLogEventsInput`, and the
last-discovery pacing tracker `start` (milliseconds; `time.Time\x7b\x7d` is
modelled by `goZeroTimeMs`). -/
structure V1State where
  startMs : Int
  endMs : Int
  endIsZero : Bool
  refresh : Bool
  streams : List String
  lastDiscoveryMs : Int
deriving DecidableEq, Repr

/-- The millisecond instant of Go's zero `time.Time` (January 1, year 1),
used to model `start = time.Time\x7b\x7d` after a restart signal. -/
def goZeroTimeMs : Int := -62135596800000

/-- V1 lines 192-199: `latest` is folded over the received events starting
from 0, updated whenever `*row.Timestamp > latest`. -/
def v1Latest (events : List Event) : Int :=
  events.foldl (fun latest e => if latest < e.timestamp then e.timestamp else latest) 0

/-- The comparison of `msg.Less` (lines 75-79): order by `IngestionTime`. -/
def ingestionLE (a b : Event) : Prop := a.ingestionTime ≤ b.ingestionTime

instance : DecidableRel ingestionLE := fun a b => Int.decLe a.ingestionTime b.ingestionTime

instance : IsTotal Event ingestionLE := ⟨fun a b => Int.le_total a.ingestionTime b.ingestionTime⟩

instance : IsTrans Event ingestionLE := ⟨fun _ _ _ hab hbc => Int.le_trans hab hbc⟩

/-- V1 line 201, `sort.Sort(msg(output))` with `msg.Less` comparing
`IngestionTime` (lines 75-79): modelled as an insertion sort by ingestion
time (the Go sort is unstable, so any correct sort by this key is a
faithful model of the emitted order up to ingestion-time ties). -/
def sortMsg (events : List Event) : List Event :=
  events.insertionSort ingestionLE

/-- The state a V1 fetch cycle (lines 178-230) hands to the next
iteration, `none` when `main` returns.  Branch order follows the source:
a pagination error `continue`s with the state unchanged (lines 207-211);
then the closed-end termination check (213-215); then the empty-cycle
`continue` (217-220); then the watermark advance
`startTimeUnix = latest + 1` (221-223) followed by the single-shot return
when refresh is off (225-227). -/
def v1Next (s : V1State) (r : FetchResult) : Option V1State :=
  if r.error then some s
  else if s.endIsZero = false ∧ s.endMs ≤ v1Latest r.events then none
  else if r.events = [] then some s
  else if s.refresh then some { s with startMs := v1Latest r.events + 1 }
  else none

/-- One V1 fetch cycle: the events it emits and the state for the next
iteration.  Emission is unconditional and precedes every check (lines
201-205 run before the error, end-reached and empty tests), so the
emitted list is always the ingestion-sorted collated result. -/
def v1Step (s : V1State) (r : FetchResult) : List Event × Option V1State :=
  (sortMsg r.events, v1Next s r)

/-- The sleep performed by a V1 cycle before the next iteration, in
milliseconds: the error path at lines 207-211 `continue`s immediately with
no sleep; only an empty, error-free, non-terminating cycle sleeps 5
seconds (line 218). -/
def v1StepSleepMs (s : V1State) (r : FetchResult) : Int :=
  if r.error then 0
  else if s.endIsZero = false ∧ s.endMs ≤ v1Latest r.events then 0
  else if r.events = [] then 5000
  else 0

/-- The sequence of per-cycle emissions of `n` consecutive V1 fetch
cycles, driven by a backend `fetch` taking the cycle index and the
current `[startMs, endMs]` window.  The cycle index lets the backend
response vary between cycles (in particular it absorbs the effect of the
periodic stream re-discovery on what the fetch returns). -/
def v1Cycles (fetch : Nat → Int → Int → FetchResult) : Nat → V1State → Nat → List (List Event)
  | _, _, 0 => []
  | k, s, n+1 =>
    sortMsg (fetch k s.startMs s.endMs).events ::
      (match v1Next s (fetch k s.startMs s.endMs) with
       | none => []
       | some s2 => v1Cycles fetch (k+1) s2 n)

/-- The V1 state after `n` fetch cycles, `none` once `main` has returned. -/
def v1After (fetch : Nat → Int → Int → FetchResult) : Nat → V1State → Nat → Option V1State
  | _, s, 0 => some s
  | k, s, n+1 =>
    match v1Next s (fetch k s.startMs s.endMs) with
    | none => none
    | some s2 => v1After fetch (k+1) s2 n

/-- V1 lines 161-168: on `SIGUSR1` the loop sets `start = time.Time\x7b\x7d`
and touches nothing else. -/
def v1SignalStep (s : V1State) : V1State :=
  { s with lastDiscoveryMs := goZeroTimeMs }

/-- V1 line 170: the discovery pacing guard `time.Since(start) > 5*time.Minute`. -/
def v1DiscoveryDue (nowMs lastMs : Int) : Bool :=
  decide (300000 < nowMs - lastMs)

/-- V1 lines 170-177: a discovery pass replaces the stream list wholesale
and records the discovery time; the watermark is untouched. -/
def v1DiscoverStep (s : V1State) (nowMs : Int) (names : List String) : V1State :=
  { s with lastDiscoveryMs := nowMs, streams := names }

/-- Modelled from the spec: the Log Backend event query honours the
half-open fetch window (spec section 3: the next fetch always queries
`[nextStart, currentEnd)`); the wire-level inclusivity of the AWS call is
outside the repository, so the spec's convention is used. -/
def FetchWF (fetch : Nat → Int → Int → FetchResult) : Prop :=
  ∀ k s e, ∀ ev ∈ (fetch k s e).events, s ≤ ev.timestamp ∧ ev.timestamp < e

/-- Every pagination sequence along the run completes without error. -/
def FetchNoErr (fetch : Nat → Int → Int → FetchResult) : Prop :=
  ∀ k s e, (fetch k s e).error = false

/-- Each single query returns pairwise-distinct events. -/
def FetchNodup (fetch : Nat → Int → Int → FetchResult) : Prop :=
  ∀ k s e, (fetch k s e).events.Nodup

/-- V1 `getLogStreams` inner scan (lines 44-58) over the candidates of one
page: a candidate whose `LastEventTimestamp` pointer is nil is
dereferenced unguarded (line 47), modelled as a panic via `Except.error`;
a candidate with `minTs <= ts` whose name matches and is not yet in the
`matched` map is appended (lines 47-53); a candidate with `ts < minTs`
triggers `break loop`, modelled by the `true` stop flag (lines 55-57). -/
def v1Scan (matcher : String → Bool) (minTs : Int) :
    List Candidate → List String → Except Unit (List String × Bool)
  | [], acc => Except.ok (acc, false)
  | c :: rest, acc =>
    match c.lastEventTime with
    | none => Except.error ()
    | some ts =>
      let acc2 := if minTs ≤ ts ∧ matcher c.name = true ∧ c.name ∉ acc then acc ++ [c.name] else acc
      if ts < minTs then Except.ok (acc2, true)
      else v1Scan matcher minTs rest acc2

/-- V1 `getLogStreams` pagination (lines 41-67) over an error-free page
sequence: pages are consumed in order; the `break loop` stop flag from
`v1Scan` abandons all remaining pages.  `minTs` is
`initialStartTime - 3*60*60*1000` (line 31). -/
def v1Pages (matcher : String → Bool) (minTs : Int) :
    List (List Candidate) → List String → Except Unit (List String)
  | [], acc => Except.ok acc
  | p :: ps, acc =>
    match v1Scan matcher minTs p acc with
    | Except.error e => Except.error e
    | Except.ok (acc2, true) => Except.ok acc2
    | Except.ok (acc2, false) => v1Pages matcher minTs ps acc2

/-- V2 `getLogStreams` per-candidate step (lines 285-295): nil
`LastEventTimestamp` is skipped (line 286); a candidate with
`minTs <= ts < maxTs` whose name matches is appended with no
deduplication (lines 288-292); a candidate with `maxTs <= ts` sets
`encounteredLaterTimestamp` (lines 293-294). -/
def v2ScanItem (matcher : String → Bool) (minTs maxTs : Int)
    (st : List String × Bool) (c : Candidate) : List String × Bool :=
  match c.lastEventTime with
  | none => st
  | some ts =>
    if minTs ≤ ts ∧ ts < maxTs then
      if matcher c.name then (st.1 ++ [c.name], st.2) else st
    else if maxTs ≤ ts then (st.1, true)
    else st

/-- V2 `getLogStreams`: one full page is always processed (the
`encounteredLaterTimestamp` flag is only consulted at the loop head,
line 283). -/
def v2ScanPage (matcher : String → Bool) (minTs maxTs : Int)
    (p : List Candidate) (st : List String × Bool) : List String × Bool :=
  p.foldl (v2ScanItem matcher minTs maxTs) st

/-- V2 `getLogStreams` pagination (lines 283-302) over an error-free page
sequence: before each page the loop stops if `encounteredLaterTimestamp`
is set; `minTs` is `minEventTime - 60*60*1000*3` (line 276) and `maxTs`
is `maxEventTime` (line 277). -/
def v2Pages (matcher : String → Bool) (minTs maxTs : Int) :
    List (List Candidate) → List String × Bool → List String
  | [], st => st.1
  | p :: ps, st =>
    if st.2 then st.1
    else v2Pages matcher minTs maxTs ps (v2ScanPage matcher minTs maxTs p st)

/-- V2 line 263: the artificial liveness offset, -60 seconds in
milliseconds. -/
def timeOffset : Int := -(60 * 1000)

/-- V2 line 357: the initial live-tail end time, `now + timeOffset`. -/
def v2EndInit (nowMs : Int) : Int := nowMs + timeOffset

/-- V2 line 391: the per-iteration live-tail end-time advancement,
`endTimeUnix = (endTimeUnix * 1000) + timeOffset + 1000`. -/
def v2EndUpdate (endMs : Int) : Int := endMs * 1000 + timeOffset + 1000

/-- V2 line 388: the post-cycle watermark advancement,
`startTimeUnix = endTimeUnix + 1000` (it does not consult the events the
cycle observed). -/
def v2AdvanceStart (endMs : Int) : Int := endMs + 1000

/-- V2 lines 387-400: the main loop continues past a cycle only when the
pagination error is nil and the end-time input is empty; otherwise it
breaks out and the process terminates. -/
def v2CycleContinues (fetchError : Bool) (endInputEmpty : Bool) : Bool :=
  !fetchError && endInputEmpty

/-- V2 lines 364-369: the stream-name chunking loop.  `i` steps by 100;
`endOfRange` is `i + 99`, adjusted to `i + len % 100` when
`len - 1 < i + 99`; the batch is the Go slice `names[i:endOfRange]`,
whose upper index is exclusive. -/
def v2BatchesAux (names : List α) : Nat → Nat → List (List α)
  | _, 0 => []
  | i, fuel+1 =>
    if i < names.length then
      let endOfRange := if names.length - 1 < i + 99 then i + names.length % 100 else i + 99
      ((names.drop i).take (endOfRange - i)) :: v2BatchesAux names (i + 100) fuel
    else []

/-- The full list of batches produced by V2's chunking loop (`names.length`
is ample fuel: the loop runs at most `ceil (len / 100)` times). -/
def v2Batches (names : List α) : List (List α) :=
  v2BatchesAux names 0 names.length

/-- The simplest stream-name matcher: the compiled pattern for the default
`-log-stream-like "*"` input (`.*` matches every name somewhere). -/
def matchAll : String → Bool := fun _ => true

/-- A name is justified for V1 inclusion by a candidate list when some
candidate carries it, matches, and has a recorded last-event time at or
after the 3-hour lookback cutoff (V1 applies no upper bound). -/
def V1Justifies (matcher : String → Bool) (minTs : Int)
    (cands : List Candidate) (name : String) : Prop :=
  ∃ c ∈ cands, c.name = name ∧ matcher c.name = true ∧
    ∃ ts, c.lastEventTime = some ts ∧ minTs ≤ ts

/-- A name is justified for V2 inclusion when some candidate carries it,
matches, and has a recorded last-event time in `[minTs, maxTs)`. -/
def V2Justifies (matcher : String → Bool) (minTs maxTs : Int)
    (cands : List Candidate) (name : String) : Prop :=
  ∃ c ∈ cands, c.name = name ∧ matcher c.name = true ∧
    ∃ ts, c.lastEventTime = some ts ∧ minTs ≤ ts ∧ ts < maxTs

/-- A deterministic backend used to exercise the run lemmas on concrete
inputs: it serves the single event with timestamp 5 whenever the queried
window contains it, and nothing otherwise. -/
def witFetch : Nat → Int → Int → FetchResult := fun _ s e =>
  ⟨if s ≤ 5 ∧ 5 < e then [⟨"s", 5, 1, "m"⟩] else [], false⟩

/-- A concrete historical-mode V1 state: window `[0, 100)`, closed end,
refresh enabled. -/
def witState : V1State := ⟨0, 100, false, true, [], 0⟩

/-- A concrete V1 state for counterexample cycles: window `[0, 1000)`,
closed end, refresh enabled. -/
def cexState : V1State := ⟨0, 1000, false, true, [], 0⟩

/-- A successful fetch whose two events arrive with ingestion order
opposite to timestamp order. -/
def cexSwapFetch : FetchResult := ⟨[⟨"s", 10, 2, "a"⟩, ⟨"s", 5, 3, "b"⟩], false⟩

/-- A fetch that observed one event with timestamp 7 and then hit a
pagination error. -/
def cexErrFetch : FetchResult := ⟨[⟨"s", 7, 1, "m"⟩], true⟩

/-! Helper lemmas about the `latest` fold of V1 (lines 192-199). -/

theorem v1Latest_init_le (l : List Event) :
    ∀ a : Int, a ≤ l.foldl (fun latest e => if latest < e.timestamp then e.timestamp else latest) a := by
  induction l with
  | nil => intro a; simp
  | cons e l ih =>
    intro a
    simp only [List.foldl_cons]
    refine le_trans ?_ (ih _)
    split <;> omega

theorem v1Latest_ge_aux (l : List Event) :
    ∀ (a : Int) (ev : Event), ev ∈ l →
      ev.timestamp ≤ l.foldl (fun latest e => if latest < e.timestamp then e.timestamp else latest) a := by
  induction l with
  | nil => intro a ev h; cases h
  | cons e l ih =>
    intro a ev h
    simp only [List.foldl_cons]
    rcases List.mem_cons.mp h with h1 | h2
    · subst h1
      refine le_trans ?_ (v1Latest_init_le l _)
      split <;> omega
    · exact ih _ ev h2

theorem v1Latest_ge (events : List Event) : ∀ ev ∈ events, ev.timestamp ≤ v1Latest events :=
  fun ev h => v1Latest_ge_aux events 0 ev h

/-! Helper lemmas about a single V1 cycle transition. -/

theorem v1Next_some_cases {s : V1State} {r : FetchResult} {s2 : V1State}
    (h : v1Next s r = some s2) :
    s2 = s ∨ (s2 = { s with startMs := v1Latest r.events + 1 } ∧ r.error = false ∧ r.events ≠ []) := by
  unfold v1Next at h
  split at h
  · exact Or.inl (Option.some.inj h).symm
  · rename_i herr
    split at h
    · cases h
    · split at h
      · exact Or.inl (Option.some.inj h).symm
      · split at h
        · rename_i hne _
          exact Or.inr ⟨(Option.some.inj h).symm, by simpa using herr, hne⟩
        · cases h

theorem v1Next_frame {s : V1State} {r : FetchResult} {s2 : V1State}
    (h : v1Next s r = some s2) :
    s2.endMs = s.endMs ∧ s2.endIsZero = s.endIsZero ∧ s2.refresh = s.refresh ∧
      s2.streams = s.streams ∧ s2.lastDiscoveryMs = s.lastDiscoveryMs := by
  rcases v1Next_some_cases h with h1 | ⟨h1, _, _⟩ <;> subst h1 <;> exact ⟨rfl, rfl, rfl, rfl, rfl⟩

theorem v1Next_start_mono {s : V1State} {r : FetchResult} {s2 : V1State}
    (hub : ∀ ev ∈ r.events, s.startMs ≤ ev.timestamp)
    (h : v1Next s r = some s2) : s.startMs ≤ s2.startMs := by
  rcases v1Next_some_cases h with h1 | ⟨h1, _, hne⟩
  · subst h1; exact le_refl _
  · subst h1
    rcases List.exists_mem_of_ne_nil r.events hne with ⟨ev, hev⟩
    have h2 := hub ev hev
    have h3 := v1Latest_ge r.events ev hev
    simp only []
    omega

theorem v1Next_gt {s : V1State} {r : FetchResult} {s2 : V1State}
    (herr : r.error = false) (h : v1Next s r = some s2) :
    ∀ ev ∈ r.events, ev.timestamp < s2.startMs := by
  unfold v1Next at h
  rw [herr] at h
  simp only [Bool.false_eq_true, if_false] at h
  split at h
  · cases h
  · split at h
    · rename_i hemp
      intro ev hev
      rw [hemp] at hev
      cases hev
    · split at h
      · intro ev hev
        have h2 := v1Latest_ge r.events ev hev
        have h3 := (Option.some.inj h).symm
        subst h3
        simp only []
        omega
      · cases h

/-! Helper lemmas about multi-cycle V1 runs. -/

/-- Every event emitted along a run lies in the initial window: at least
the initial watermark and strictly below the (invariant) end time. -/
theorem v1Cycles_ts_bounds (fetch : Nat → Int → Int → FetchResult) (hwf : FetchWF fetch) :
    ∀ (n k : Nat) (s : V1State), ∀ ev ∈ (v1Cycles fetch k s n).flatten,
      s.startMs ≤ ev.timestamp ∧ ev.timestamp < s.endMs := by
  intro n
  induction n with
  | zero => intro k s ev h; simp [v1Cycles] at h
  | succ n ih =>
    intro k s ev h
    rw [v1Cycles] at h
    rw [List.flatten_cons, List.mem_append] at h
    rcases h with h | h
    · rw [sortMsg, List.mem_insertionSort] at h
      exact hwf k s.startMs s.endMs ev h
    · cases hnx : v1Next s (fetch k s.startMs s.endMs) with
      | none => rw [hnx] at h; cases h
      | some s2 =>
        rw [hnx] at h
        have h2 := ih (k+1) s2 ev h
        have hmono := v1Next_start_mono
          (fun e he => (hwf k s.startMs s.endMs e he).1) hnx
        have hfr := v1Next_frame hnx
        exact ⟨le_trans hmono h2.1, hfr.1 ▸ h2.2⟩

/-- Every cycle in a run is the ingestion-sorted image of some backend
query result. -/
theorem v1Cycles_mem_shape (fetch : Nat → Int → Int → FetchResult) :
    ∀ (n k : Nat) (s : V1State), ∀ c ∈ v1Cycles fetch k s n,
      ∃ (j : Nat) (a b : Int), c = sortMsg (fetch j a b).events := by
  intro n
  induction n with
  | zero => intro k s c h; simp [v1Cycles] at h
  | succ n ih =>
    intro k s c h
    rw [v1Cycles] at h
    rcases List.mem_cons.mp h with h | h
    · exact ⟨k, s.startMs, s.endMs, h⟩
    · cases hnx : v1Next s (fetch k s.startMs s.endMs) with
      | none => rw [hnx] at h; cases h
      | some s2 => rw [hnx] at h; exact ih (k+1) s2 c h

/-- Cross-cycle ordering: an earlier cycle's timestamps all lie strictly
below a later cycle's, on an error-free run with a window-honouring
backend. -/
theorem v1Cycles_pairwise (fetch : Nat → Int → Int → FetchResult)
    (hwf : FetchWF fetch) (herr : FetchNoErr fetch) :
    ∀ (n k : Nat) (s : V1State),
      List.Pairwise (fun c1 c2 => ∀ e ∈ c1, ∀ f ∈ c2, e.timestamp < f.timestamp)
        (v1Cycles fetch k s n) := by
  intro n
  induction n with
  | zero => intro k s; simp [v1Cycles]
  | succ n ih =>
    intro k s
    rw [v1Cycles]
    cases hnx : v1Next s (fetch k s.startMs s.endMs) with
    | none => simp
    | some s2 =>
      refine List.Pairwise.cons ?_ (ih (k+1) s2)
      intro c hc e he f hf
      have he2 : e ∈ (fetch k s.startMs s.endMs).events := by
        rw [sortMsg, List.mem_insertionSort] at he
        exact he
      have h1 := v1Next_gt (herr k s.startMs s.endMs) hnx e he2
      have h2 := (v1Cycles_ts_bounds fetch hwf n (k+1) s2 f
        (List.mem_flatten_of_mem hc hf)).1
      omega

/-- On an error-free run whose backend returns distinct events per query,
the overall emitted sequence contains no duplicate event. -/
theorem v1Cycles_flatten_nodup (fetch : Nat → Int → Int → FetchResult)
    (hwf : FetchWF fetch) (herr : FetchNoErr fetch) (hnd : FetchNodup fetch)
    (n k : Nat) (s : V1State) : ((v1Cycles fetch k s n).flatten).Nodup := by
  rw [List.nodup_flatten]
  constructor
  · intro c hc
    rcases v1Cycles_mem_shape fetch n k s c hc with ⟨j, a, b, h⟩
    subst h
    rw [sortMsg]
    exact ((List.perm_insertionSort _ _).nodup_iff).mpr (hnd j a b)
  · refine List.Pairwise.imp ?_ (v1Cycles_pairwise fetch hwf herr n k s)
    intro c1 c2 h
    rw [List.disjoint_left]
    intro e he1 he2
    exact absurd (h e he1 e he2) (lt_irrefl _)

/-- After `n` error-free cycles the watermark has not decreased, the end
parameters are unchanged, and all emitted timestamps lie strictly below
the reached watermark. -/
theorem v1After_props (fetch : Nat → Int → Int → FetchResult)
    (hwf : FetchWF fetch) (herr : FetchNoErr fetch) :
    ∀ (n k : Nat) (s s2 : V1State), v1After fetch k s n = some s2 →
      s.startMs ≤ s2.startMs ∧ s2.endMs = s.endMs ∧ s2.endIsZero = s.endIsZero ∧
        s2.refresh = s.refresh ∧
        (∀ ev ∈ (v1Cycles fetch k s n).flatten, ev.timestamp < s2.startMs) := by
  intro n
  induction n with
  | zero =>
    intro k s s2 h
    rw [v1After] at h
    have h1 := Option.some.inj h
    subst h1
    exact ⟨le_refl _, rfl, rfl, rfl, by intro ev hev; simp [v1Cycles] at hev⟩
  | succ n ih =>
    intro k s s2 h
    rw [v1After] at h
    cases hnx : v1Next s (fetch k s.startMs s.endMs) with
    | none => rw [hnx] at h; cases h
    | some s1 =>
      rw [hnx] at h
      have h2 := ih (k+1) s1 s2 h
      have hmono := v1Next_start_mono
        (fun e he => (hwf k s.startMs s.endMs e he).1) hnx
      have hfr := v1Next_frame hnx
      refine ⟨le_trans hmono h2.1, h2.2.1.trans hfr.1, h2.2.2.1.trans hfr.2.1,
        h2.2.2.2.1.trans hfr.2.2.1, ?_⟩
      intro ev hev
      rw [v1Cycles] at hev
      rw [hnx] at hev
      rw [List.flatten_cons, List.mem_append] at hev
      rcases hev with hev | hev
      · have he2 : ev ∈ (fetch k s.startMs s.endMs).events := by
          rw [sortMsg, List.mem_insertionSort] at hev
          exact hev
        have h3 := v1Next_gt (herr k s.startMs s.endMs) hnx ev he2
        omega
      · exact h2.2.2.2.2 ev hev

/-- The emitted list of one cycle is sorted by ingestion time. -/
theorem sortMsg_sorted (events : List Event) :
    List.Pairwise ingestionLE (sortMsg events) :=
  List.sorted_insertionSort ingestionLE events

/-! Helper lemmas about V1 stream discovery (`getLogStreams`, lines 29-73). -/

theorem V1Justifies_mono {matcher : String → Bool} {minTs : Int}
    {l1 l2 : List Candidate} {name : String} (hsub : ∀ c ∈ l1, c ∈ l2) :
    V1Justifies matcher minTs l1 name → V1Justifies matcher minTs l2 name := by
  rintro ⟨c, hc, rest⟩
  exact ⟨c, hsub c hc, rest⟩

theorem V2Justifies_mono {matcher : String → Bool} {minTs maxTs : Int}
    {l1 l2 : List Candidate} {name : String} (hsub : ∀ c ∈ l1, c ∈ l2) :
    V2Justifies matcher minTs maxTs l1 name → V2Justifies matcher minTs maxTs l2 name := by
  rintro ⟨c, hc, rest⟩
  exact ⟨c, hsub c hc, rest⟩

theorem v1Scan_sound (matcher : String → Bool) (minTs : Int) :
    ∀ (cands : List Candidate) (acc res : List String) (b : Bool),
      v1Scan matcher minTs cands acc = Except.ok (res, b) →
      ∀ name ∈ res, name ∈ acc ∨ V1Justifies matcher minTs cands name := by
  intro cands
  induction cands with
  | nil =>
    intro acc res b h name hn
    rw [v1Scan] at h
    simp only [Except.ok.injEq, Prod.mk.injEq] at h
    exact Or.inl (h.1 ▸ hn)
  | cons c rest ih =>
    intro acc res b h name hn
    rw [v1Scan] at h
    cases hts : c.lastEventTime with
    | none => rw [hts] at h; cases h
    | some ts =>
      rw [hts] at h
      simp only [] at h
      by_cases hadd : minTs ≤ ts ∧ matcher c.name = true ∧ c.name ∉ acc
      · rw [if_pos hadd] at h
        have hstep : ∀ x ∈ acc ++ [c.name],
            x ∈ acc ∨ V1Justifies matcher minTs (c :: rest) x := by
          intro x hx
          rcases List.mem_append.mp hx with hx | hx
          · exact Or.inl hx
          · have hx2 : x = c.name := List.mem_singleton.mp hx
            subst hx2
            exact Or.inr ⟨c, List.mem_cons_self c rest, rfl, hadd.2.1, ts, hts, hadd.1⟩
        split at h
        · simp only [Except.ok.injEq, Prod.mk.injEq] at h
          exact hstep name (h.1 ▸ hn)
        · rcases ih (acc ++ [c.name]) res b h name hn with h2 | h2
          · exact hstep name h2
          · exact Or.inr (V1Justifies_mono (fun x hx => List.mem_cons_of_mem c hx) h2)
      · rw [if_neg hadd] at h
        split at h
        · simp only [Except.ok.injEq, Prod.mk.injEq] at h
          exact Or.inl (h.1 ▸ hn)
        · rcases ih acc res b h name hn with h2 | h2
          · exact Or.inl h2
          · exact Or.inr (V1Justifies_mono (fun x hx => List.mem_cons_of_mem c hx) h2)

theorem v1Scan_acc_subset (matcher : String → Bool) (minTs : Int) :
    ∀ (cands : List Candidate) (acc res : List String) (b : Bool),
      v1Scan matcher minTs cands acc = Except.ok (res, b) →
      ∀ name ∈ acc, name ∈ res := by
  intro cands
  induction cands with
  | nil =>
    intro acc res b h name hn
    rw [v1Scan] at h
    simp only [Except.ok.injEq, Prod.mk.injEq] at h
    exact h.1 ▸ hn
  | cons c rest ih =>
    intro acc res b h name hn
    rw [v1Scan] at h
    cases hts : c.lastEventTime with
    | none => rw [hts] at h; cases h
    | some ts =>
      rw [hts] at h
      simp only [] at h
      have hsub : ∀ x ∈ acc,
          x ∈ (if minTs ≤ ts ∧ matcher c.name = true ∧ c.name ∉ acc
               then acc ++ [c.name] else acc) := by
        intro x hx
        split
        · exact List.mem_append_left _ hx
        · exact hx
      split at h
      · simp only [Except.ok.injEq, Prod.mk.injEq] at h
        exact h.1 ▸ hsub name hn
      · exact ih _ res b h name (hsub name hn)

theorem v1Scan_nodup (matcher : String → Bool) (minTs : Int) :
    ∀ (cands : List Candidate) (acc res : List String) (b : Bool),
      v1Scan matcher minTs cands acc = Except.ok (res, b) →
      acc.Nodup → res.Nodup := by
  intro cands
  induction cands with
  | nil =>
    intro acc res b h hacc
    rw [v1Scan] at h
    simp only [Except.ok.injEq, Prod.mk.injEq] at h
    exact h.1 ▸ hacc
  | cons c rest ih =>
    intro acc res b h hacc
    rw [v1Scan] at h
    cases hts : c.lastEventTime with
    | none => rw [hts] at h; cases h
    | some ts =>
      rw [hts] at h
      simp only [] at h
      have hacc2 : (if minTs ≤ ts ∧ matcher c.name = true ∧ c.name ∉ acc
                    then acc ++ [c.name] else acc).Nodup := by
        split
        · rename_i hadd
          simp only [List.nodup_append, List.nodup_cons, List.nodup_nil,
            List.disjoint_singleton]
          exact ⟨hacc, by simp, fun hx => hadd.2.2 hx⟩
        · exact hacc
      split at h
      · simp only [Except.ok.injEq, Prod.mk.injEq] at h
        exact h.1 ▸ hacc2
      · exact ih _ res b h hacc2

theorem v1Scan_complete (matcher : String → Bool) (minTs : Int) :
    ∀ (cands : List Candidate) (acc : List String),
      (∀ c ∈ cands, ∃ ts, c.lastEventTime = some ts ∧ minTs ≤ ts) →
      ∃ res, v1Scan matcher minTs cands acc = Except.ok (res, false) ∧
        (∀ name ∈ acc, name ∈ res) ∧
        (∀ c ∈ cands, matcher c.name = true → c.name ∈ res) := by
  intro cands
  induction cands with
  | nil =>
    intro acc hall
    exact ⟨acc, by rw [v1Scan], fun name hn => hn, by intro c hc; cases hc⟩
  | cons c rest ih =>
    intro acc hall
    rcases hall c (List.mem_cons_self c rest) with ⟨ts, hts, hge⟩
    have hall2 : ∀ c2 ∈ rest, ∃ ts, c2.lastEventTime = some ts ∧ minTs ≤ ts :=
      fun c2 hc2 => hall c2 (List.mem_cons_of_mem c hc2)
    set acc2 := if minTs ≤ ts ∧ matcher c.name = true ∧ c.name ∉ acc
                then acc ++ [c.name] else acc with hacc2
    rcases ih acc2 hall2 with ⟨res, hres, hsub, hcomp⟩
    refine ⟨res, ?_, ?_, ?_⟩
    · rw [v1Scan, hts]
      simp only []
      rw [if_neg (by omega)]
      exact hres
    · intro name hn
      refine hsub name ?_
      rw [hacc2]
      split
      · exact List.mem_append_left _ hn
      · exact hn
    · intro c2 hc2 hm
      rcases List.mem_cons.mp hc2 with h2 | h2
      · subst h2
        refine hsub c2.name ?_
        rw [hacc2]
        by_cases hin : c2.name ∈ acc
        · split
          · exact List.mem_append_left _ hin
          · exact hin
        · rw [if_pos ⟨hge, hm, hin⟩]
          exact List.mem_append_right _ (List.mem_singleton.mpr rfl)
      · exact hcomp c2 h2 hm

theorem v1Pages_sound (matcher : String → Bool) (minTs : Int) :
    ∀ (pages : List (List Candidate)) (acc res : List String),
      v1Pages matcher minTs pages acc = Except.ok res →
      ∀ name ∈ res, name ∈ acc ∨ V1Justifies matcher minTs pages.flatten name := by
  intro pages
  induction pages with
  | nil =>
    intro acc res h name hn
    rw [v1Pages] at h
    exact Or.inl ((Except.ok.inj h) ▸ hn)
  | cons p ps ih =>
    intro acc res h name hn
    rw [v1Pages] at h
    cases hscan : v1Scan matcher minTs p acc with
    | error e => rw [hscan] at h; cases h
    | ok pr =>
      rw [hscan] at h
      rcases pr with ⟨acc2, b⟩
      have hpsub : ∀ c ∈ p, c ∈ (p :: ps).flatten := by
        intro c hc
        rw [List.flatten_cons]
        exact List.mem_append_left _ hc
      cases b with
      | true =>
        simp only [] at h
        have h2 := Except.ok.inj h
        rcases v1Scan_sound matcher minTs p acc acc2 true hscan name (h2 ▸ hn) with h3 | h3
        · exact Or.inl h3
        · exact Or.inr (V1Justifies_mono hpsub h3)
      | false =>
        simp only [] at h
        rcases ih acc2 res h name hn with h2 | h2
        · rcases v1Scan_sound matcher minTs p acc acc2 false hscan name h2 with h3 | h3
          · exact Or.inl h3
          · exact Or.inr (V1Justifies_mono hpsub h3)
        · refine Or.inr (V1Justifies_mono ?_ h2)
          intro c hc
          rw [List.flatten_cons]
          exact List.mem_append_right _ hc

theorem v1Pages_nodup (matcher : String → Bool) (minTs : Int) :
    ∀ (pages : List (List Candidate)) (acc res : List String),
      v1Pages matcher minTs pages acc = Except.ok res →
      acc.Nodup → res.Nodup := by
  intro pages
  induction pages with
  | nil =>
    intro acc res h hacc
    rw [v1Pages] at h
    exact (Except.ok.inj h) ▸ hacc
  | cons p ps ih =>
    intro acc res h hacc
    rw [v1Pages] at h
    cases hscan : v1Scan matcher minTs p acc with
    | error e => rw [hscan] at h; cases h
    | ok pr =>
      rw [hscan] at h
      rcases pr with ⟨acc2, b⟩
      cases b with
      | true =>
        simp only [] at h
        exact (Except.ok.inj h) ▸ v1Scan_nodup matcher minTs p acc acc2 true hscan hacc
      | false =>
        simp only [] at h
        exact ih acc2 res h (v1Scan_nodup matcher minTs p acc acc2 false hscan hacc)

/-- The labelled `break loop` short-circuit (lines 55-57): once a page
scan reports the cutoff, the discovery result is fixed and no further
page influences it. -/
theorem v1Pages_cut (matcher : String → Bool) (minTs : Int)
    (p : List Candidate) (acc acc2 : List String)
    (h : v1Scan matcher minTs p acc = Except.ok (acc2, true)) :
    ∀ ps : List (List Candidate),
      v1Pages matcher minTs (p :: ps) acc = Except.ok acc2 := by
  intro ps
  rw [v1Pages, h]

theorem v1Pages_complete (matcher : String → Bool) (minTs : Int) :
    ∀ (pages : List (List Candidate)) (acc : List String),
      (∀ c ∈ pages.flatten, ∃ ts, c.lastEventTime = some ts ∧ minTs ≤ ts) →
      ∃ res, v1Pages matcher minTs pages acc = Except.ok res ∧
        (∀ name ∈ acc, name ∈ res) ∧
        (∀ c ∈ pages.flatten, matcher c.name = true → c.name ∈ res) := by
  intro pages
  induction pages with
  | nil =>
    intro acc hall
    refine ⟨acc, by rw [v1Pages], fun name hn => hn, ?_⟩
    intro c hc
    simp at hc
  | cons p ps ih =>
    intro acc hall
    have hallp : ∀ c ∈ p, ∃ ts, c.lastEventTime = some ts ∧ minTs ≤ ts := by
      intro c hc
      refine hall c ?_
      rw [List.flatten_cons]
      exact List.mem_append_left _ hc
    have hallps : ∀ c ∈ ps.flatten, ∃ ts, c.lastEventTime = some ts ∧ minTs ≤ ts := by
      intro c hc
      refine hall c ?_
      rw [List.flatten_cons]
      exact List.mem_append_right _ hc
    rcases v1Scan_complete matcher minTs p acc hallp with ⟨acc2, hscan, hsub1, hcomp1⟩
    rcases ih acc2 hallps with ⟨res, hres, hsub2, hcomp2⟩
    refine ⟨res, ?_, fun name hn => hsub2 name (hsub1 name hn), ?_⟩
    · rw [v1Pages, hscan]
      exact hres
    · intro c hc hm
      rw [List.flatten_cons, List.mem_append] at hc
      rcases hc with hc | hc
      · exact hsub2 c.name (hcomp1 c hc hm)
      · exact hcomp2 c hc hm

/-! Helper lemmas about V2 stream discovery (`getLogStreams`, lines 274-304). -/

theorem v2ScanItem_sound (matcher : String → Bool) (minTs maxTs : Int)
    (st : List String × Bool) (c : Candidate) :
    ∀ name ∈ (v2ScanItem matcher minTs maxTs st c).1,
      name ∈ st.1 ∨ V2Justifies matcher minTs maxTs [c] name := by
  intro name hn
  rw [v2ScanItem] at hn
  cases hts : c.lastEventTime with
  | none => rw [hts] at hn; exact Or.inl hn
  | some ts =>
    rw [hts] at hn
    simp only [] at hn
    split at hn
    · rename_i hin
      split at hn
      · rename_i hm
        rcases List.mem_append.mp hn with h2 | h2
        · exact Or.inl h2
        · have h3 : name = c.name := List.mem_singleton.mp h2
          subst h3
          exact Or.inr ⟨c, List.mem_singleton.mpr rfl, rfl, hm, ts, hts, hin.1, hin.2⟩
      · exact Or.inl hn
    · split at hn
      · exact Or.inl hn
      · exact Or.inl hn

theorem v2ScanItem_subset (matcher : String → Bool) (minTs maxTs : Int)
    (st : List String × Bool) (c : Candidate) :
    ∀ name ∈ st.1, name ∈ (v2ScanItem matcher minTs maxTs st c).1 := by
  intro name hn
  rw [v2ScanItem]
  cases c.lastEventTime with
  | none => exact hn
  | some ts =>
    simp only []
    split
    · split
      · exact List.mem_append_left _ hn
      · exact hn
    · split
      · exact hn
      · exact hn

theorem v2ScanItem_enc (matcher : String → Bool) (minTs maxTs : Int)
    (st : List String × Bool) (c : Candidate)
    (hbelow : ∀ ts, c.lastEventTime = some ts → ts < maxTs) :
    (v2ScanItem matcher minTs maxTs st c).2 = st.2 := by
  rw [v2ScanItem]
  cases hts : c.lastEventTime with
  | none => rfl
  | some ts =>
    simp only []
    split
    · split <;> rfl
    · split
      · rename_i hge
        exact absurd (hbelow ts hts) (not_lt.mpr hge)
      · rfl

theorem v2ScanPage_sound (matcher : String → Bool) (minTs maxTs : Int) :
    ∀ (p : List Candidate) (st : List String × Bool),
      ∀ name ∈ (v2ScanPage matcher minTs maxTs p st).1,
        name ∈ st.1 ∨ V2Justifies matcher minTs maxTs p name := by
  intro p
  induction p with
  | nil => intro st name hn; exact Or.inl hn
  | cons c rest ih =>
    intro st name hn
    rw [v2ScanPage, List.foldl_cons] at hn
    rcases ih (v2ScanItem matcher minTs maxTs st c) name hn with h2 | h2
    · rcases v2ScanItem_sound matcher minTs maxTs st c name h2 with h3 | h3
      · exact Or.inl h3
      · refine Or.inr (V2Justifies_mono ?_ h3)
        intro x hx
        have h4 : x = c := List.mem_singleton.mp hx
        rw [h4]
        exact List.mem_cons_self c rest
    · exact Or.inr (V2Justifies_mono (fun x hx => List.mem_cons_of_mem c hx) h2)

theorem v2ScanPage_subset (matcher : String → Bool) (minTs maxTs : Int) :
    ∀ (p : List Candidate) (st : List String × Bool),
      ∀ name ∈ st.1, name ∈ (v2ScanPage matcher minTs maxTs p st).1 := by
  intro p
  induction p with
  | nil => intro st name hn; exact hn
  | cons c rest ih =>
    intro st name hn
    rw [v2ScanPage, List.foldl_cons]
    exact ih _ name (v2ScanItem_subset matcher minTs maxTs st c name hn)

theorem v2ScanPage_enc (matcher : String → Bool) (minTs maxTs : Int) :
    ∀ (p : List Candidate) (st : List String × Bool),
      (∀ c ∈ p, ∀ ts, c.lastEventTime = some ts → ts < maxTs) →
      (v2ScanPage matcher minTs maxTs p st).2 = st.2 := by
  intro p
  induction p with
  | nil => intro st _; rfl
  | cons c rest ih =>
    intro st hbelow
    rw [v2ScanPage, List.foldl_cons]
    have h1 := ih (v2ScanItem matcher minTs maxTs st c)
      (fun c2 hc2 => hbelow c2 (List.mem_cons_of_mem c hc2))
    rw [v2ScanPage] at h1
    rw [h1]
    exact v2ScanItem_enc matcher minTs maxTs st c
      (hbelow c (List.mem_cons_self c rest))

theorem v2ScanPage_complete (matcher : String → Bool) (minTs maxTs : Int) :
    ∀ (p : List Candidate) (st : List String × Bool) (c : Candidate) (ts : Int),
      c ∈ p → c.lastEventTime = some ts → minTs ≤ ts → ts < maxTs →
      matcher c.name = true →
      c.name ∈ (v2ScanPage matcher minTs maxTs p st).1 := by
  intro p
  induction p with
  | nil => intro st c ts hc; cases hc
  | cons c0 rest ih =>
    intro st c ts hc hts hge hlt hm
    rw [v2ScanPage, List.foldl_cons]
    rcases List.mem_cons.mp hc with h1 | h1
    · subst h1
      refine v2ScanPage_subset matcher minTs maxTs rest _ c.name ?_
      rw [v2ScanItem, hts]
      simp only []
      rw [if_pos ⟨hge, hlt⟩, if_pos hm]
      exact List.mem_append_right _ (List.mem_singleton.mpr rfl)
    · exact ih _ c ts h1 hts hge hlt hm

/-- Once `encounteredLaterTimestamp` is set, no further page is consumed
(loop head, line 283). -/
theorem v2Pages_stop (matcher : String → Bool) (minTs maxTs : Int)
    (ps : List (List Candidate)) (acc : List String) :
    v2Pages matcher minTs maxTs ps (acc, true) = acc := by
  cases ps with
  | nil => rw [v2Pages]
  | cons p ps => rw [v2Pages]; simp

theorem v2Pages_sound (matcher : String → Bool) (minTs maxTs : Int) :
    ∀ (pages : List (List Candidate)) (st : List String × Bool),
      ∀ name ∈ v2Pages matcher minTs maxTs pages st,
        name ∈ st.1 ∨ V2Justifies matcher minTs maxTs pages.flatten name := by
  intro pages
  induction pages with
  | nil => intro st name hn; exact Or.inl hn
  | cons p ps ih =>
    intro st name hn
    rw [v2Pages] at hn
    split at hn
    · exact Or.inl hn
    · rcases ih _ name hn with h2 | h2
      · rcases v2ScanPage_sound matcher minTs maxTs p st name h2 with h3 | h3
        · exact Or.inl h3
        · refine Or.inr (V2Justifies_mono ?_ h3)
          intro x hx
          rw [List.flatten_cons]
          exact List.mem_append_left _ hx
      · refine Or.inr (V2Justifies_mono ?_ h2)
        intro x hx
        rw [List.flatten_cons]
        exact List.mem_append_right _ hx

/-- The page that sets `encounteredLaterTimestamp` is the last page
consumed: the result is already fixed whatever the remaining pages
hold. -/
theorem v2Pages_cut (matcher : String → Bool) (minTs maxTs : Int)
    (p : List Candidate) (acc acc2 : List String)
    (h : v2ScanPage matcher minTs maxTs p (acc, false) = (acc2, true)) :
    ∀ ps : List (List Candidate),
      v2Pages matcher minTs maxTs (p :: ps) (acc, false) = acc2 := by
  intro ps
  rw [v2Pages]
  simp only [Bool.false_eq_true, if_false]
  rw [h]
  exact v2Pages_stop matcher minTs maxTs ps acc2

theorem v2Pages_subset (matcher : String → Bool) (minTs maxTs : Int) :
    ∀ (pages : List (List Candidate)) (acc : List String),
      (∀ c ∈ pages.flatten, ∀ ts, c.lastEventTime = some ts → ts < maxTs) →
      ∀ name ∈ acc, name ∈ v2Pages matcher minTs maxTs pages (acc, false) := by
  intro pages
  induction pages with
  | nil => intro acc _ name hn; exact hn
  | cons p ps ih =>
    intro acc hbelow name hn
    have hbp : ∀ c ∈ p, ∀ ts, c.lastEventTime = some ts → ts < maxTs := by
      intro c hc
      refine hbelow c ?_
      rw [List.flatten_cons]
      exact List.mem_append_left _ hc
    have hbps : ∀ c ∈ ps.flatten, ∀ ts, c.lastEventTime = some ts → ts < maxTs := by
      intro c hc
      refine hbelow c ?_
      rw [List.flatten_cons]
      exact List.mem_append_right _ hc
    rw [v2Pages]
    simp only [Bool.false_eq_true, if_false]
    have henc := v2ScanPage_enc matcher minTs maxTs p (acc, false) hbp
    have hpair : v2ScanPage matcher minTs maxTs p (acc, false) =
        ((v2ScanPage matcher minTs maxTs p (acc, false)).1, false) := by
      rw [Prod.ext_iff]
      exact ⟨rfl, henc⟩
    rw [hpair]
    exact ih _ hbps name (v2ScanPage_subset matcher minTs maxTs p (acc, false) name hn)

theorem v2Pages_complete (matcher : String → Bool) (minTs maxTs : Int) :
    ∀ (pages : List (List Candidate)) (acc : List String),
      (∀ c ∈ pages.flatten, ∀ ts, c.lastEventTime = some ts → ts < maxTs) →
      ∀ (c : Candidate) (ts : Int), c ∈ pages.flatten →
        c.lastEventTime = some ts → minTs ≤ ts → matcher c.name = true →
        c.name ∈ v2Pages matcher minTs maxTs pages (acc, false) := by
  intro pages
  induction pages with
  | nil => intro acc _ c ts hc; simp at hc
  | cons p ps ih =>
    intro acc hbelow c ts hc hts hge hm
    have hbp : ∀ c2 ∈ p, ∀ ts2, c2.lastEventTime = some ts2 → ts2 < maxTs := by
      intro c2 hc2
      refine hbelow c2 ?_
      rw [List.flatten_cons]
      exact List.mem_append_left _ hc2
    have hbps : ∀ c2 ∈ ps.flatten, ∀ ts2, c2.lastEventTime = some ts2 → ts2 < maxTs := by
      intro c2 hc2
      refine hbelow c2 ?_
      rw [List.flatten_cons]
      exact List.mem_append_right _ hc2
    rw [v2Pages]
    simp only [Bool.false_eq_true, if_false]
    have henc := v2ScanPage_enc matcher minTs maxTs p (acc, false) hbp
    have hpair : v2ScanPage matcher minTs maxTs p (acc, false) =
        ((v2ScanPage matcher minTs maxTs p (acc, false)).1, false) := by
      rw [Prod.ext_iff]
      exact ⟨rfl, henc⟩
    rw [hpair]
    rw [List.flatten_cons, List.mem_append] at hc
    rcases hc with hc | hc
    · refine v2Pages_subset matcher minTs maxTs ps _ hbps c.name ?_
      exact v2ScanPage_complete matcher minTs maxTs p (acc, false) c ts hc hts hge
        (hbp c hc ts hts) hm
    · exact ih _ hbps c ts hc hts hge hm

/-! Facts about the concrete backend `witFetch` used by the witnesses. -/

theorem witFetch_wf : FetchWF witFetch := by
  intro k s e ev hev
  rw [witFetch] at hev
  simp only [] at hev
  split at hev
  · rename_i h
    have h2 : ev = ⟨"s", 5, 1, "m"⟩ := List.mem_singleton.mp hev
    rw [h2]
    exact ⟨h.1, h.2⟩
  · cases hev

theorem witFetch_noerr : FetchNoErr witFetch := fun _ _ _ => rfl

theorem witFetch_nodup : FetchNodup witFetch := fun _ _ _ => by
  rw [witFetch]
  split
  · exact List.nodup_singleton _
  · exact List.nodup_nil

/-! The claims. -/

/-- Claim C1 (amended).  The claim as frozen — emitted timestamps are
non-decreasing across the whole run — fails because each cycle sorts by
ingestion time, not timestamp (see the counterexample).  Amended: on an
error-free run against a backend that honours the fetch window and
returns distinct events per query, (a) each cycle's emission is ordered
by ingestion time, (b) every event of a later cycle has a strictly
greater timestamp than every event of an earlier cycle, and (c) no event
is emitted more than once. -/
theorem c1_cross_cycle_order (fetch : Nat → Int → Int → FetchResult)
    (hwf : FetchWF fetch) (herr : FetchNoErr fetch) (hnd : FetchNodup fetch)
    (n k : Nat) (s : V1State) :
    (∀ c ∈ v1Cycles fetch k s n, List.Pairwise ingestionLE c) ∧
    List.Pairwise (fun c1 c2 => ∀ e ∈ c1, ∀ f ∈ c2, e.timestamp < f.timestamp)
      (v1Cycles fetch k s n) ∧
    ((v1Cycles fetch k s n).flatten).Nodup := by
  refine ⟨?_, v1Cycles_pairwise fetch hwf herr n k s,
    v1Cycles_flatten_nodup fetch hwf herr hnd n k s⟩
  intro c hc
  rcases v1Cycles_mem_shape fetch n k s c hc with ⟨j, a, b, h⟩
  rw [h]
  exact sortMsg_sorted _

/-- Claim C1 witness: a two-cycle run of the concrete backend emits its single
event exactly once. -/
theorem c1_cross_cycle_order_witness :
    ((v1Cycles witFetch 0 witState 2).flatten).Nodup ∧
    (v1Cycles witFetch 0 witState 2).flatten.map Event.timestamp = [5] := by
  refine ⟨(c1_cross_cycle_order witFetch witFetch_wf witFetch_noerr witFetch_nodup
    2 0 witState).2.2, by decide⟩

/-- Claim C1 counterexample: a single error-free cycle receives an event with
timestamp 10 before one with timestamp 5 but later ingestion time;
emission order follows ingestion time, so the emitted timestamp sequence
decreases, refuting the frozen claim. -/
theorem c1_counterexample :
    (v1Step cexState cexSwapFetch).1.map Event.timestamp = [10, 5] ∧
    ¬ List.Pairwise (fun a b : Int => a ≤ b)
        ((v1Step cexState cexSwapFetch).1.map Event.timestamp) := by
  constructor
  · decide
  · decide

/-- Claim C2 (code bug).  V2's live-tail end-time advancement (line 391)
multiplies the running millisecond end time by 1000 each iteration
instead of recomputing it from the clock: at the realistic end time
1600000000000 ms (September 2020) one update yields
1599999999941000 ms — about year 52668 — which is far ahead of real
time, whereas the spec's recomputation `now + timeOffset` at that same
instant gives 1599999940000 ms. -/
theorem c2_livetail_end_update_bug :
    v2EndUpdate 1600000000000 = 1599999999941000 ∧
    v2EndInit 1600000000000 = 1599999940000 ∧
    1600000000000 < v2EndUpdate 1600000000000 ∧
    v2EndUpdate 1600000000000 ≠ v2EndInit 1600000000000 := by
  refine ⟨?_, ?_, ?_, ?_⟩ <;> norm_num [v2EndUpdate, v2EndInit, timeOffset]

/-- Claim C3 (amended).  Both discovery variants never include a stream lacking
an in-range justification — in particular never one whose last-event time
is below the 3-hour lookback cutoff.  The short-circuit differs: V1 stops
at the first candidate below `minTs` (its result is fixed whatever pages
follow), while V2 stops only after a page containing a candidate at or
beyond `maxTs` (see the counterexample for the frozen claim's version). -/
theorem c3_discovery_cutoff (matcher : String → Bool) (minTs maxTs : Int)
    (pages ps : List (List Candidate)) (p : List Candidate)
    (res acc acc2 : List String) :
    (v1Pages matcher minTs pages [] = Except.ok res →
      ∀ name ∈ res, V1Justifies matcher minTs pages.flatten name) ∧
    (v1Scan matcher minTs p acc = Except.ok (acc2, true) →
      v1Pages matcher minTs (p :: ps) acc = Except.ok acc2) ∧
    (∀ name ∈ v2Pages matcher minTs maxTs pages ([], false),
      V2Justifies matcher minTs maxTs pages.flatten name) ∧
    (v2ScanPage matcher minTs maxTs p (acc, false) = (acc2, true) →
      v2Pages matcher minTs maxTs (p :: ps) (acc, false) = acc2) := by
  refine ⟨?_, ?_, ?_, ?_⟩
  · intro hok name hn
    rcases v1Pages_sound matcher minTs pages [] res hok name hn with h | h
    · cases h
    · exact h
  · intro hcut
    exact v1Pages_cut matcher minTs p acc acc2 hcut ps
  · intro name hn
    rcases v2Pages_sound matcher minTs maxTs pages ([], false) name hn with h | h
    · cases h
    · exact h
  · intro hcut
    exact v2Pages_cut matcher minTs maxTs p acc acc2 hcut ps

/-- Claim C3 witness: V1 discovery hits the cutoff on a stale candidate and
returns without consuming the remaining page (the candidate named c,
though in range and matching, is absent). -/
theorem c3_discovery_cutoff_witness :
    v1Pages matchAll 0 [[⟨"b", some (-2)⟩], [⟨"c", some 9⟩]] ["a"] =
      Except.ok ["a"] := by
  have h := c3_discovery_cutoff matchAll 0 100 [] [[⟨"c", some 9⟩]]
    [⟨"b", some (-2)⟩] [] ["a"] ["a"]
  exact h.2.1 rfl

/-- Claim C3 counterexample: V2 discovery sees a candidate below the cutoff
(`lastEventTime = -5 < minTs = 0`) on its first page yet still consumes
the second page and includes its stream, refuting the frozen claim's
short-circuit for the continuous-refresh variant. -/
theorem c3_counterexample :
    v2Pages matchAll 0 100 [[⟨"a", some (-5)⟩], [⟨"b", some 5⟩]] ([], false) =
      ["b"] := by
  decide

/-- Claim C4 (amended).  In V1, a successful, non-terminating cycle with at
least one event advances the watermark to `latest + 1` where `latest`
bounds every observed timestamp; an empty successful cycle and an
erroring cycle both leave the state unchanged (the frozen claim fails
for erroring cycles that observed events — see the counterexample — and
for V2, whose advancement `startTimeUnix = endTimeUnix + 1000` ignores
the observed timestamps entirely). -/
theorem c4_watermark_advance (s : V1State) (r : FetchResult) :
    (r.error = false → r.events ≠ [] →
      ¬(s.endIsZero = false ∧ s.endMs ≤ v1Latest r.events) → s.refresh = true →
      (v1Step s r).2 = some { s with startMs := v1Latest r.events + 1 }) ∧
    (∀ ev ∈ r.events, ev.timestamp ≤ v1Latest r.events) ∧
    (r.error = false → r.events = [] →
      ¬(s.endIsZero = false ∧ s.endMs ≤ v1Latest r.events) →
      (v1Step s r).2 = some s) ∧
    (r.error = true → (v1Step s r).2 = some s) ∧
    (∀ endMs : Int, v2AdvanceStart endMs = endMs + 1000) := by
  refine ⟨?_, v1Latest_ge r.events, ?_, ?_, fun _ => rfl⟩
  · intro herr hne hterm hrefresh
    show v1Next s r = _
    rw [v1Next, herr]
    simp only [Bool.false_eq_true, if_false]
    rw [if_neg hterm, if_neg hne, if_pos hrefresh]
  · intro herr hemp hterm
    show v1Next s r = _
    rw [v1Next, herr]
    simp only [Bool.false_eq_true, if_false]
    rw [if_neg hterm, if_pos hemp]
  · intro herr
    show v1Next s r = _
    rw [v1Next, if_pos herr]

/-- Claim C4 witness: a successful cycle observing the single event with
timestamp 7 advances the watermark to 8. -/
theorem c4_watermark_advance_witness :
    (v1Step cexState ⟨[⟨"s", 7, 1, "m"⟩], false⟩).2 =
      some ⟨8, 1000, false, true, [], 0⟩ := by
  have h := c4_watermark_advance cexState ⟨[⟨"s", 7, 1, "m"⟩], false⟩
  have h2 := h.1 rfl (by decide) (by decide) rfl
  rw [h2]
  decide

/-- Claim C4 counterexample: a cycle that observed an event with maximum
timestamp 7 but whose pagination erred leaves the watermark at 0, not 8,
refuting the frozen claim's universal quantification over cycles. -/
theorem c4_counterexample :
    (v1Step cexState cexErrFetch).2 = some cexState ∧
    cexState.startMs ≠ 7 + 1 ∧
    v1Latest cexErrFetch.events = 7 := by
  refine ⟨by decide, by decide, by decide⟩

/-- Claim C5 (amended).  On a pagination error the single-pass poller does not
terminate and re-enters the cycle with the same unchanged state, but
immediately — the `continue` at line 210 sleeps 0 ms, not 5 s; the
continuous-refresh variant instead breaks out of its loop on a fetch
error in every mode, terminating the process. -/
theorem c5_error_retry (s : V1State) (r : FetchResult) (h : r.error = true) :
    (v1Step s r).2 = some s ∧
    v1StepSleepMs s r = 0 ∧
    (∀ b, v2CycleContinues true b = false) := by
  refine ⟨?_, ?_, fun b => rfl⟩
  · show v1Next s r = some s
    rw [v1Next, if_pos h]
  · rw [v1StepSleepMs, if_pos h]

/-- Claim C5 witness: a concrete erroring cycle keeps the state unchanged. -/
theorem c5_error_retry_witness :
    (v1Step cexState ⟨[⟨"s", 3, 1, "m"⟩], true⟩).2 = some cexState := by
  exact (c5_error_retry cexState ⟨[⟨"s", 3, 1, "m"⟩], true⟩ rfl).1

/-- Claim C5 counterexample: the continuous-refresh poller's loop does not
continue past an erroring cycle even in live-tail mode (it terminates),
and the single-pass poller's error path sleeps 0 ms rather than the
claimed 5 seconds. -/
theorem c5_counterexample :
    v2CycleContinues true true = false ∧
    v1StepSleepMs cexState ⟨[], true⟩ = 0 ∧ (0 : Int) ≠ 5000 := by
  refine ⟨rfl, by decide, by decide⟩

/-- Claim C6 (confirmed).  In historical-range mode (closed end), a cycle that
completes its pagination without error and whose observed running
maximum reaches the end time makes the loop return; and with a backend
honouring the half-open fetch window, every event emitted along any run
has a timestamp strictly below the configured end (which every reached
state preserves). -/
theorem c6_historical_end (fetch : Nat → Int → Int → FetchResult)
    (hwf : FetchWF fetch) (s : V1State) (r : FetchResult) (n k : Nat) :
    (r.error = false → s.endIsZero = false → s.endMs ≤ v1Latest r.events →
      (v1Step s r).2 = none) ∧
    (∀ ev ∈ r.events, ev.timestamp ≤ v1Latest r.events) ∧
    (∀ ev ∈ (v1Cycles fetch k s n).flatten, ev.timestamp < s.endMs) := by
  refine ⟨?_, v1Latest_ge r.events, ?_⟩
  · intro herr hz hle
    show v1Next s r = none
    rw [v1Next, herr]
    simp only [Bool.false_eq_true, if_false]
    rw [if_pos ⟨hz, hle⟩]
  · intro ev hev
    exact (v1Cycles_ts_bounds fetch hwf n k s ev hev).2

/-- Claim C6 witness: the step terminates at a concrete end-reaching cycle, and
a concrete three-cycle historical run emits only timestamps below its end
time 100. -/
theorem c6_historical_end_witness :
    (v1Step witState ⟨[⟨"s", 100, 1, "m"⟩], false⟩).2 = none ∧
    ∀ ev ∈ (v1Cycles witFetch 0 witState 3).flatten, ev.timestamp < witState.endMs := by
  have h := c6_historical_end witFetch witFetch_wf witState ⟨[⟨"s", 100, 1, "m"⟩], false⟩ 3 0
  exact ⟨h.1 rfl rfl (by decide), h.2.2⟩

/-- Claim C7 (amended).  During one discovery pass: V1 adds a name exactly when
some scanned candidate justifies it with a recorded last-event time at or
after the lookback cutoff and a matching name — with no upper bound — and
its result is deduplicated; V2 adds a name only when a candidate
justifies it with a last-event time in `[minTs, maxTs)` and a matching
name, conversely including every such candidate of a fully-consumed page
sequence, but without deduplication (see the counterexample). -/
theorem c7_inclusion_rule (matcher : String → Bool) (minTs maxTs : Int)
    (pages : List (List Candidate)) (res : List String) :
    (v1Pages matcher minTs pages [] = Except.ok res →
      (∀ name ∈ res, V1Justifies matcher minTs pages.flatten name) ∧ res.Nodup) ∧
    ((∀ c ∈ pages.flatten, ∃ ts, c.lastEventTime = some ts ∧ minTs ≤ ts) →
      ∃ res2, v1Pages matcher minTs pages [] = Except.ok res2 ∧
        ∀ name, name ∈ res2 ↔ V1Justifies matcher minTs pages.flatten name) ∧
    (∀ name ∈ v2Pages matcher minTs maxTs pages ([], false),
      V2Justifies matcher minTs maxTs pages.flatten name) ∧
    ((∀ c ∈ pages.flatten, ∀ ts, c.lastEventTime = some ts → ts < maxTs) →
      ∀ (c : Candidate) (ts : Int), c ∈ pages.flatten → c.lastEventTime = some ts →
        minTs ≤ ts → matcher c.name = true →
        c.name ∈ v2Pages matcher minTs maxTs pages ([], false)) := by
  refine ⟨?_, ?_, ?_, v2Pages_complete matcher minTs maxTs pages []⟩
  · intro hok
    constructor
    · intro name hn
      rcases v1Pages_sound matcher minTs pages [] res hok name hn with h | h
      · cases h
      · exact h
    · exact v1Pages_nodup matcher minTs pages [] res hok List.nodup_nil
  · intro hall
    rcases v1Pages_complete matcher minTs pages [] hall with ⟨res2, hres, _, hcomp⟩
    refine ⟨res2, hres, ?_⟩
    intro name
    constructor
    · intro hn
      rcases v1Pages_sound matcher minTs pages [] res2 hres name hn with h | h
      · cases h
      · exact h
    · rintro ⟨c, hc, hname, hm, ts, hts, hge⟩
      rw [← hname]
      exact hcomp c hc (hname ▸ hm)
  · intro name hn
    rcases v2Pages_sound matcher minTs maxTs pages ([], false) name hn with h | h
    · cases h
    · exact h

/-- Claim C7 witness: a page whose candidates all lie in range yields exactly
the matching names, deduplicated, for V1. -/
theorem c7_inclusion_rule_witness :
    (∀ name ∈ ["bar1"], V1Justifies matchAll 0 [[⟨"bar1", some 5⟩]].flatten name) ∧
    (["bar1"] : List String).Nodup := by
  exact (c7_inclusion_rule matchAll 0 100 [[⟨"bar1", some 5⟩]] ["bar1"]).1 rfl

/-- Claim C7 counterexample: V2 discovery applies no per-pass deduplication: a
stream name reported twice in range appears twice in the result, refuting
the frozen claim's at-most-once conjunct. -/
theorem c7_counterexample :
    v2Pages matchAll 0 100 [[⟨"x", some 5⟩, ⟨"x", some 6⟩]] ([], false) = ["x", "x"] ∧
    ¬ (["x", "x"] : List String).Nodup := by
  refine ⟨by decide, by decide⟩

/-- Claim C8 (code bug).  A candidate with no recorded last-event timestamp is
skipped safely by the V2 discovery (nil guard at line 286), but the V1
discovery dereferences `item.LastEventTimestamp` unconditionally at line
47, so the same page panics there instead of being skipped. -/
theorem c8_nil_timestamp :
    v1Pages matchAll 0 [[⟨"app", none⟩]] [] = Except.error () ∧
    v2Pages matchAll 0 100 [[⟨"app", none⟩]] ([], false) = [] := by
  refine ⟨rfl, rfl⟩

/-- Claim C9 (confirmed).  The restart signal rewrites only the pacing tracker:
watermark, stream set, end parameters and refresh flag are untouched; the
discovery guard then fires for any current time at or after the epoch,
and no event emitted before the signal can be emitted again afterwards on
an error-free run (later emissions carry strictly greater timestamps). -/
theorem c9_restart_signal (fetch : Nat → Int → Int → FetchResult)
    (hwf : FetchWF fetch) (herr : FetchNoErr fetch)
    (n m k : Nat) (s sN : V1State) (hrun : v1After fetch k s n = some sN)
    (now : Int) (hnow : 0 ≤ now) :
    (v1SignalStep sN).startMs = sN.startMs ∧
    (v1SignalStep sN).streams = sN.streams ∧
    (v1SignalStep sN).endMs = sN.endMs ∧
    (v1SignalStep sN).endIsZero = sN.endIsZero ∧
    (v1SignalStep sN).refresh = sN.refresh ∧
    v1DiscoveryDue now (v1SignalStep sN).lastDiscoveryMs = true ∧
    (∀ e ∈ (v1Cycles fetch k s n).flatten,
      ∀ f ∈ (v1Cycles fetch (k+n) (v1SignalStep sN) m).flatten,
        e.timestamp < f.timestamp ∧ e ≠ f) := by
  refine ⟨rfl, rfl, rfl, rfl, rfl, ?_, ?_⟩
  · rw [v1SignalStep]
    simp only [v1DiscoveryDue, goZeroTimeMs, decide_eq_true_eq]
    omega
  · intro e he f hf
    have h1 := (v1After_props fetch hwf herr n k s sN hrun).2.2.2.2 e he
    have h2 := (v1Cycles_ts_bounds fetch hwf m (k+n) (v1SignalStep sN) f hf).1
    have h3 : (v1SignalStep sN).startMs = sN.startMs := rfl
    rw [h3] at h2
    have h4 : e.timestamp < f.timestamp := lt_of_lt_of_le h1 h2
    exact ⟨h4, fun hc => absurd (hc ▸ h4) (lt_irrefl _)⟩

/-- Claim C9 witness: after one concrete cycle the signal leaves the watermark
at 6 and the discovery guard fires at time 0; the event emitted before
the signal differs from every event emitted after it. -/
theorem c9_restart_signal_witness :
    (v1SignalStep ⟨6, 100, false, true, [], 0⟩).startMs = 6 ∧
    v1DiscoveryDue 0 (v1SignalStep ⟨6, 100, false, true, [], 0⟩).lastDiscoveryMs = true ∧
    (∀ e ∈ (v1Cycles witFetch 0 witState 1).flatten,
      ∀ f ∈ (v1Cycles witFetch 1 (v1SignalStep ⟨6, 100, false, true, [], 0⟩) 1).flatten,
        e.timestamp < f.timestamp ∧ e ≠ f) := by
  have h := c9_restart_signal witFetch witFetch_wf witFetch_noerr 1 1 0
    witState ⟨6, 100, false, true, [], 0⟩ (by decide) 0 (by decide)
  exact ⟨h.1, h.2.2.2.2.2.1, h.2.2.2.2.2.2⟩

/-- Claim C10 (code bug).  The chunking loop slices `names[i : i+99]`, whose
upper index is exclusive, so with 100 names the single batch holds the
first 99 names and the name at index 99 is in no batch — the claimed
coverage fails — while the at-most-100 bound does hold on this input. -/
theorem c10_chunking :
    (99 ∈ List.range 100) ∧
    99 ∉ (v2Batches (List.range 100)).flatten ∧
    (∀ b ∈ v2Batches (List.range 100), b.length ≤ 100) := by
  refine ⟨by decide, by decide, by decide⟩
